import Mathlib

/-!
Verification of `mobile/android/fenix/app/src/main/res/string_replace.py`.

The script performs four sequential text-rewriting passes over Android
`strings.xml` files:

1. `replace_brand_names`: inside every region matched by the regular expression
   `(<string[^>]*>)(.*?)(</string>)` (DOTALL), replace `Firefox` by `Waterfox`
   and, when the region does not contain `Mozilla Account`, replace `Mozilla`
   by `BrowserWorks`.
2. `fix_format_specifiers`: rewrite
   `(<string name="trackers_blocked_panel_categorical_num_trackers_blocked"[^>]*>)%s([^%]*?)%d(</string>)`
   to the positional form `%1$s ... %2$d`.
3. `fix_apostrophes`: inside the same string regions, escape the apostrophes of
   a fixed list of contractions, matched case-insensitively
   (`re.sub(pat, repl, content, flags=re.IGNORECASE)` with a literal
   replacement template).
4. Artifact cleanup: `content.replace('">>', '">')` over the whole file.

Text is modelled as `List Char`.  Python's regex scanning for the patterns
above is deterministic (the bracket classes `[^>]`/`[^%]` cannot cross their
stop characters, so backtracking never produces a different match), which lets
each pass be embedded as a left-to-right scanner.  Case-insensitive matching is
modelled as ASCII case folding via `Char.toLower`; all patterns of the script
are ASCII, for which this coincides with Python's `re.IGNORECASE`.
Functions are written with an explicit fuel argument (always instantiated with
the length of the input) so that they are structurally recursive and compute by
kernel reduction.
-/

namespace StringReplace

set_option maxRecDepth 16384

/-- Text, as a list of characters. -/
abbrev CL := List Char

/-- Case-sensitive character comparison: Python `str.replace` and `re` matching
without flags. -/
def chEq (a b : Char) : Bool := a == b

/-- ASCII case-insensitive character comparison, modelling `re.IGNORECASE` for
the ASCII-only patterns used by the script.  For ASCII text this coincides
with Python's matching; off ASCII, Python additionally equates a few extra
case pairs, so universal statements built on `chEqCI` are made about ASCII
text only. -/
def chEqCI (a b : Char) : Bool := a.toLower == b.toLower

/-- Is the character ASCII?  On ASCII text the case-insensitive model
`chEqCI` agrees exactly with Python `re.IGNORECASE`. -/
def asciiCh (ch : Char) : Bool := decide (ch.toNat < 128)

/-- Does pattern `p` match a prefix of `s`, comparing characters with `e`? -/
def pfxBy (e : Char → Char → Bool) : CL → CL → Bool
  | [], _ => true
  | _ :: _, [] => false
  | a :: p, b :: s => e a b && pfxBy e p s

/-- Does pattern `p` occur anywhere in `s` (characters compared with `e`)? -/
def occBy (e : Char → Char → Bool) (p : CL) : CL → Bool
  | [] => pfxBy e p []
  | s@(_ :: t) => pfxBy e p s || occBy e p t

/-- Replace all non-overlapping occurrences of `p` (matched via `e`) by `r`,
scanning left to right: the semantics of Python `str.replace` and of `re.sub`
with a literal pattern.  `fuel` bounds the recursion; `fuel = s.length`
suffices for non-empty `p`. -/
def subF (e : Char → Char → Bool) (p r : CL) : Nat → CL → CL
  | 0, s => s
  | _ + 1, [] => []
  | n + 1, c :: t =>
    if pfxBy e p (c :: t) then r ++ subF e p r n ((c :: t).drop p.length)
    else c :: subF e p r n t

/-- `str.replace` / literal `re.sub`: replace every occurrence of `p` by `r`. -/
def subAll (e : Char → Char → Bool) (p r s : CL) : CL := subF e p r s.length s

/-- Split `s` at the first (leftmost) occurrence of `p`:
`splitFirst p s = some (a, b)` iff `s = a ++ p ++ b` with the occurrence of `p`
shown being the leftmost one. -/
def splitFirst (p : CL) : CL → Option (CL × CL)
  | [] => if pfxBy chEq p [] then some ([], []) else none
  | c :: t =>
    if pfxBy chEq p (c :: t) then some ([], (c :: t).drop p.length)
    else
      match splitFirst p t with
      | some (a, b) => some (c :: a, b)
      | none => none

/-- `<string` : the opening-tag pattern prefix of `(<string[^>]*>)(.*?)(</string>)`. -/
def openLit : CL := "<string".data

/-- `>` as a one-character pattern. -/
def gtL : CL := ">".data

/-- `</string>` : the closing-tag literal. -/
def closeLit : CL := "</string>".data

/-- `re.sub(r'(<string[^>]*>)(.*?)(</string>)', f, s, flags=re.DOTALL)` where
`f` rewrites the content group: repeatedly find the leftmost `<string`, the
first `>` after it (the `[^>]*>` part), and the first `</string>` after that
(the lazy `(.*?)`), apply `f` to the content and continue after the match.
If any of the three searches fails there is no match anywhere (the searches
are monotone in the start position), matching the regex semantics. -/
def mapSpansF (f : CL → CL) : Nat → CL → CL
  | 0, s => s
  | n + 1, s =>
    match splitFirst openLit s with
    | none => s
    | some (a, b) =>
      match splitFirst gtL b with
      | none => s
      | some (t, u) =>
        match splitFirst closeLit u with
        | none => s
        | some (c, rest) =>
          a ++ openLit ++ t ++ gtL ++ f c ++ closeLit ++ mapSpansF f n rest

/-- The string-span rewriting combinator used by passes 1 and 3. -/
def mapSpans (f : CL → CL) (s : CL) : CL := mapSpansF f s.length s

def firefoxL : CL := "Firefox".data
def waterfoxL : CL := "Waterfox".data
def mozillaL : CL := "Mozilla".data
def browserWorksL : CL := "BrowserWorks".data
def mozillaAccountL : CL := "Mozilla Account".data

/-- `replace_in_string` (lines 68-80): per-span brand replacement.  `Firefox`
is always replaced by `Waterfox`; `Mozilla` is replaced by `BrowserWorks`
unless the (already Firefox-replaced) span contains `Mozilla Account`. -/
def replace_in_string (string_content : CL) : CL :=
  let c1 := subAll chEq firefoxL waterfoxL string_content
  if occBy chEq mozillaAccountL c1 then c1
  else subAll chEq mozillaL browserWorksL c1

/-- `replace_brand_names` (lines 66-90). -/
def replace_brand_names (content : CL) : CL := mapSpans replace_in_string content

/-- The opening-tag literal of the format-specifier pattern (line 108). -/
def fmtTagLit : CL :=
  "<string name=\"trackers_blocked_panel_categorical_num_trackers_blocked\"".data

def psL : CL := "%s".data
def pctL : CL := "%".data
def ps1L : CL := "%1$s".data
def pd2L : CL := "%2$d".data

/-- Try to match
`(<string name="trackers_blocked_panel_categorical_num_trackers_blocked"[^>]*>)%s([^%]*?)%d(</string>)`
at the start of `s`.  On success, return the replaced text
(`start_tag ++ %1$s ++ middle ++ %2$d ++ </string>`, line 107) and the
remainder after the match.  The lazy `([^%]*?)` runs to the first `%`, which
must be followed by `d</string>`; the class `[^%]` cannot cross a `%`, so no
other match at this position is possible. -/
def tryFmtAt (s : CL) : Option (CL × CL) :=
  if pfxBy chEq fmtTagLit s then
    match splitFirst gtL (s.drop fmtTagLit.length) with
    | none => none
    | some (attrs, u) =>
      if pfxBy chEq psL u then
        match splitFirst pctL (u.drop 2) with
        | none => none
        | some (mid, w) =>
          match w with
          | 'd' :: w2 =>
            if pfxBy chEq closeLit w2 then
              some (fmtTagLit ++ attrs ++ gtL ++ ps1L ++ mid ++ pd2L ++ closeLit,
                    w2.drop closeLit.length)
            else none
          | _ => none
      else none
  else none

/-- Left-to-right scan applying `tryFmtAt` at each position (the `re.sub` of
line 110), continuing after each match. -/
def fmtScanF : Nat → CL → CL
  | 0, s => s
  | _ + 1, [] => []
  | n + 1, c :: t =>
    match tryFmtAt (c :: t) with
    | some (rep, rest) => rep ++ fmtScanF n rest
    | none => c :: fmtScanF n t

/-- `fix_format_specifiers` (lines 92-111). -/
def fix_format_specifiers (content : CL) : CL := fmtScanF content.length content

/-- `apostrophe_patterns` (lines 117-149): the fixed list of
(pattern, replacement) pairs.  The replacement template `\'` is passed through
verbatim by Python's `re.sub` (backslash before a non-letter), so each
replacement is the lower-case pattern with a backslash inserted before the
apostrophe. -/
def apostrophe_patterns : List (CL × CL) :=
  [ ("BrowserWorks's".data, "BrowserWorks\\'s".data),
    ("you're".data,    "you\\'re".data),
    ("you'll".data,    "you\\'ll".data),
    ("we're".data,     "we\\'re".data),
    ("we'll".data,     "we\\'ll".data),
    ("they're".data,   "they\\'re".data),
    ("they'll".data,   "they\\'ll".data),
    ("it's".data,      "it\\'s".data),
    ("that's".data,    "that\\'s".data),
    ("what's".data,    "what\\'s".data),
    ("here's".data,    "here\\'s".data),
    ("there's".data,   "there\\'s".data),
    ("let's".data,     "let\\'s".data),
    ("don't".data,     "don\\'t".data),
    ("doesn't".data,   "doesn\\'t".data),
    ("won't".data,     "won\\'t".data),
    ("can't".data,     "can\\'t".data),
    ("couldn't".data,  "couldn\\'t".data),
    ("wouldn't".data,  "wouldn\\'t".data),
    ("shouldn't".data, "shouldn\\'t".data),
    ("mustn't".data,   "mustn\\'t".data),
    ("haven't".data,   "haven\\'t".data),
    ("hasn't".data,    "hasn\\'t".data),
    ("hadn't".data,    "hadn\\'t".data),
    ("isn't".data,     "isn\\'t".data),
    ("wasn't".data,    "wasn\\'t".data),
    ("weren't".data,   "weren\\'t".data),
    ("aren't".data,    "aren\\'t".data) ]

/-- `fix_apostrophes_in_string` (lines 152-161): apply each pattern in list
order, case-insensitively, over the span content. -/
def fix_apostrophes_in_string (string_content : CL) : CL :=
  apostrophe_patterns.foldl (fun acc pr => subAll chEqCI pr.1 pr.2 acc) string_content

/-- `fix_apostrophes` (lines 113-170). -/
def fix_apostrophes (content : CL) : CL := mapSpans fix_apostrophes_in_string content

/-- `">>` : the artifact pattern of line 54. -/
def artifactL : CL := "\">>".data

/-- `">` : its replacement. -/
def artifactRepL : CL := "\">".data

/-- The pure transformation core of `process_file` (lines 44-54): the four
passes in order, the artifact cleanup applied to the whole text. -/
def process_content (s : CL) : CL :=
  subAll chEq artifactL artifactRepL
    (fix_apostrophes (fix_format_specifiers (replace_brand_names s)))

/-- `<` as a one-character pattern. -/
def ltL : CL := "<".data

/-- `%d` as a literal. -/
def pdL : CL := "%d".data

/-- `p` has no non-trivial border: no proper non-empty prefix of `p` is also a
suffix of `p`.  For such patterns an occurrence of `p` cannot straddle the
boundary of an explicit occurrence `x ++ p ++ b`. -/
def borderFreeB (p : CL) : Bool :=
  (List.range p.length).all fun l => l == 0 || !(p.take l == p.drop (p.length - l))

/-- Could texts matched by `x` and by `y` (characters compared with `e`) agree
on their common prefix?  Used to express that two patterns cannot overlap. -/
def headAgree (e : Char → Char → Bool) : CL → CL → Bool
  | [], _ => true
  | _, [] => true
  | a :: x, b :: y => e a b && headAgree e x y

/-- No occurrence of the literal `q` can begin strictly inside a text matched
(via `e`) by the pattern `p`. -/
def noTouchL (e : Char → Char → Bool) (p q : CL) : Bool :=
  (List.range p.length).all fun i => !(headAgree e (p.drop i) q)

/-- No occurrence of the literal `q` can begin before a text matched (via `e`)
by `p` and run into it: no non-empty suffix of `q` can start such a text. -/
def noTouchR (e : Char → Char → Bool) (p q : CL) : Bool :=
  (List.range q.length).all fun k => !(headAgree e p (q.drop k))

/-- `p` cannot match (via `e`) a text beginning strictly inside a literal
occurrence of `p` itself. -/
def noSelfR (e : Char → Char → Bool) (p : CL) : Bool :=
  (List.range p.length).all fun k => k == 0 || !(headAgree e p (p.drop k))

/-- The decomposition computed by the span scanner `mapSpansF`: a list of
(text before the opening tag, tag attributes, span content) triples and the
trailing text after the last span. -/
def spanParts : Nat → CL → List (CL × CL × CL) × CL
  | 0, s => ([], s)
  | n + 1, s =>
    match splitFirst openLit s with
    | none => ([], s)
    | some (a, b) =>
      match splitFirst gtL b with
      | none => ([], s)
      | some (t, u) =>
        match splitFirst closeLit u with
        | none => ([], s)
        | some (c, rest) =>
          let pr := spanParts n rest
          ((a, t, c) :: pr.1, pr.2)

/-- Reassemble a span decomposition, applying `g` to each span content. -/
def renderSpans (g : CL → CL) : List (CL × CL × CL) → CL → CL
  | [], tr => tr
  | (pre, attrs, c) :: items, tr =>
    pre ++ openLit ++ attrs ++ gtL ++ g c ++ closeLit ++ renderSpans g items tr

/-- The I/O environment of one file for `process_file` (lines 38-63): reading
may fail (I/O or encoding error) and writing may fail. -/
structure FileCase where
  readResult : Except String CL
  writeError : Option String

/-- `process_file` (lines 38-63) with I/O modelled by `Except`: read the file,
apply the four passes, write the result back; any failure surfaces as
`.error` at this single file's boundary. -/
def process_file (fc : FileCase) : Except String CL :=
  match fc.readResult with
  | .error e => .error e
  | .ok content =>
    match fc.writeError with
    | some e => .error e
    | none => .ok (process_content content)

/-- The `try`/`except` of lines 40-63: a failure is contained at the file
boundary and converted to `False` (the function's return value). -/
def process_one (fc : FileCase) : Bool :=
  match process_file fc with
  | .ok _ => true
  | .error _ => false

/-- The console line printed for a file: `Error processing <path>: <msg>` on
failure (line 62). -/
def file_report (path : String) (fc : FileCase) : String :=
  match process_file fc with
  | .ok _ => "Processing: " ++ path
  | .error e => "Error processing " ++ path ++ ": " ++ e

/-- `process_string_files` (lines 17-36): process every file in order, count
successes, and report `(success_count, total)`. -/
def process_string_files (files : List FileCase) : Nat × Nat :=
  (files.foldl (fun n fc => if process_one fc then n + 1 else n) 0, files.length)

/-! ### Basic facts about `pfxBy` and `occBy` -/

theorem pfxBy_nil (e : Char → Char → Bool) (s : CL) : pfxBy e [] s = true := by
  cases s <;> rfl

theorem pfxBy_cons (e : Char → Char → Bool) (a : Char) (p : CL) (b : Char) (s : CL) :
    pfxBy e (a :: p) (b :: s) = (e a b && pfxBy e p s) := rfl

theorem pfxBy_length_le {e : Char → Char → Bool} {p s : CL} (h : pfxBy e p s = true) :
    p.length ≤ s.length := by
  induction p generalizing s with
  | nil => simp
  | cons a p ih =>
    cases s with
    | nil => exact absurd h (by simp [pfxBy])
    | cons b t =>
      rw [pfxBy_cons, Bool.and_eq_true] at h
      simpa using ih h.2

theorem pfxBy_false_of_lt {e : Char → Char → Bool} {p s : CL} (h : s.length < p.length) :
    pfxBy e p s = false := by
  cases hp : pfxBy e p s
  · rfl
  · exact absurd (pfxBy_length_le hp) (by omega)

theorem take_of_pfxBy {p s : CL} (h : pfxBy chEq p s = true) : s.take p.length = p := by
  induction p generalizing s with
  | nil => simp
  | cons a p ih =>
    cases s with
    | nil => exact absurd h (by simp [pfxBy])
    | cons b t =>
      rw [pfxBy_cons, Bool.and_eq_true] at h
      have hab : a = b := beq_iff_eq.mp h.1
      simp [hab, ih h.2]

theorem pfxBy_of_take {p s : CL} (h : s.take p.length = p) : pfxBy chEq p s = true := by
  induction p generalizing s with
  | nil => exact pfxBy_nil _ _
  | cons a p ih =>
    cases s with
    | nil => simp at h
    | cons b t =>
      simp only [List.length_cons, List.take_succ_cons, List.cons.injEq] at h
      rw [pfxBy_cons, Bool.and_eq_true]
      exact ⟨by simp [chEq, h.1], ih h.2⟩

theorem eq_append_of_pfxBy {p s : CL} (h : pfxBy chEq p s = true) :
    s = p ++ s.drop p.length := by
  conv_lhs => rw [← List.take_append_drop p.length s]
  rw [take_of_pfxBy h]

theorem pfxBy_append_self (p t : CL) : pfxBy chEq p (p ++ t) = true := by
  apply pfxBy_of_take
  rw [List.take_append_eq_append_take, List.take_length, Nat.sub_self, List.take_zero,
    List.append_nil]

theorem pfxBy_refl (p : CL) : pfxBy chEq p p = true := by
  simpa using pfxBy_append_self p []

theorem pfxBy_take {e : Char → Char → Bool} {p s : CL} (h : pfxBy e p s = true) :
    pfxBy e p (s.take p.length) = true := by
  induction p generalizing s with
  | nil => exact pfxBy_nil _ _
  | cons a p ih =>
    cases s with
    | nil => exact absurd h (by simp [pfxBy])
    | cons b t =>
      rw [pfxBy_cons, Bool.and_eq_true] at h
      rw [List.length_cons, List.take_succ_cons, pfxBy_cons, Bool.and_eq_true]
      exact ⟨h.1, ih h.2⟩

theorem length_take_of_pfxBy {e : Char → Char → Bool} {p s : CL} (h : pfxBy e p s = true) :
    (s.take p.length).length = p.length := by
  rw [List.length_take]
  exact Nat.min_eq_left (pfxBy_length_le h)

theorem pfxBy_append_left {e : Char → Char → Bool} {p x : CL} (y : CL)
    (h : p.length ≤ x.length) : pfxBy e p (x ++ y) = pfxBy e p x := by
  induction p generalizing x with
  | nil => rw [pfxBy_nil, pfxBy_nil]
  | cons a p ih =>
    cases x with
    | nil => simp at h
    | cons b t =>
      simp only [List.length_cons, Nat.succ_le_succ_iff] at h
      rw [List.cons_append, pfxBy_cons, pfxBy_cons, ih h]

theorem pfxBy_drop {e : Char → Char → Bool} {p u : CL} (i : Nat) (h : pfxBy e p u = true) :
    pfxBy e (p.drop i) (u.drop i) = true := by
  induction i generalizing p u with
  | zero => simpa using h
  | succ i ih =>
    cases p with
    | nil => exact pfxBy_nil _ _
    | cons a p =>
      cases u with
      | nil => exact absurd h (by simp [pfxBy])
      | cons b t =>
        rw [pfxBy_cons, Bool.and_eq_true] at h
        rw [List.drop_succ_cons, List.drop_succ_cons]
        exact ih h.2

theorem occBy_nil (e : Char → Char → Bool) (p : CL) : occBy e p [] = pfxBy e p [] := rfl

theorem occBy_cons (e : Char → Char → Bool) (p : CL) (c : Char) (t : CL) :
    occBy e p (c :: t) = (pfxBy e p (c :: t) || occBy e p t) := rfl

theorem occBy_of_pfxBy {e : Char → Char → Bool} {p s : CL} (h : pfxBy e p s = true) :
    occBy e p s = true := by
  cases s with
  | nil => exact h
  | cons c t => rw [occBy_cons, h, Bool.true_or]

theorem pfxBy_false_of_occBy_false {e : Char → Char → Bool} {p s : CL}
    (h : occBy e p s = false) : pfxBy e p s = false := by
  cases hp : pfxBy e p s
  · rfl
  · rw [occBy_of_pfxBy hp] at h; exact absurd h (by simp)

theorem occBy_tail_false {e : Char → Char → Bool} {p : CL} {c : Char} {t : CL}
    (h : occBy e p (c :: t) = false) : occBy e p t = false := by
  rw [occBy_cons, Bool.or_eq_false_iff] at h
  exact h.2

theorem occBy_append_right {e : Char → Char → Bool} {p t : CL} (u : CL)
    (h : occBy e p t = true) : occBy e p (u ++ t) = true := by
  induction u with
  | nil => exact h
  | cons c u ih => rw [List.cons_append, occBy_cons, ih, Bool.or_true]

theorem head_mem_of_occBy {c : Char} {p s : CL} (h : occBy chEq (c :: p) s = true) :
    c ∈ s := by
  induction s with
  | nil => simp [occBy, pfxBy] at h
  | cons b t ih =>
    rw [occBy_cons, Bool.or_eq_true] at h
    rcases h with h | h
    · rw [pfxBy_cons, Bool.and_eq_true] at h
      have : c = b := beq_iff_eq.mp h.1
      simp [this]
    · exact List.mem_cons_of_mem _ (ih h)

theorem occBy_single_of_mem {ch : Char} {s : CL} (h : ch ∈ s) :
    occBy chEq [ch] s = true := by
  induction s with
  | nil => simp at h
  | cons b t ih =>
    rw [occBy_cons, Bool.or_eq_true]
    rcases List.mem_cons.mp h with h | h
    · exact Or.inl (by simp [pfxBy_cons, pfxBy_nil, chEq, h])
    · exact Or.inr (ih h)

theorem not_mem_of_occBy_single_false {ch : Char} {s : CL}
    (h : occBy chEq [ch] s = false) : ch ∉ s := by
  intro hm
  rw [occBy_single_of_mem hm] at h
  exact absurd h (by simp)

/-! ### Facts about `subF` and `subAll` -/

theorem subF_fuel {e : Char → Char → Bool} {p r : CL} (hp : p ≠ []) :
    ∀ n m s, s.length ≤ n → s.length ≤ m → subF e p r n s = subF e p r m s := by
  intro n
  induction n with
  | zero =>
    intro m s hn _
    have hs : s = [] := List.eq_nil_of_length_eq_zero (Nat.le_zero.mp hn)
    subst hs
    cases m <;> rfl
  | succ n ih =>
    intro m s hn hm
    cases s with
    | nil => cases m <;> rfl
    | cons c t =>
      cases m with
      | zero => simp at hm
      | succ m =>
        have hp1 : 1 ≤ p.length := by
          cases p with
          | nil => exact absurd rfl hp
          | cons _ _ => simp
        simp only [List.length_cons] at hn hm
        rw [subF, subF]
        cases hpf : pfxBy e p (c :: t)
        · rw [if_neg (by simp), if_neg (by simp)]
          rw [ih m t (by omega) (by omega)]
        · rw [if_pos rfl, if_pos rfl]
          have hd : ((c :: t).drop p.length).length ≤ n := by
            rw [List.length_drop, List.length_cons]
            omega
          have hd2 : ((c :: t).drop p.length).length ≤ m := by
            rw [List.length_drop, List.length_cons]
            omega
          rw [ih m _ hd hd2]

theorem subAll_nil (e : Char → Char → Bool) (p r : CL) : subAll e p r [] = [] := rfl

theorem subAll_cons_pos {e : Char → Char → Bool} {p : CL} (r : CL) {c : Char} {t : CL}
    (hp : p ≠ []) (h : pfxBy e p (c :: t) = true) :
    subAll e p r (c :: t) = r ++ subAll e p r ((c :: t).drop p.length) := by
  show subF e p r (t.length + 1) (c :: t) = _
  rw [subF, if_pos h]
  congr 1
  apply subF_fuel hp
  · rw [List.length_drop, List.length_cons]
    have hp1 : 1 ≤ p.length := by
      cases p with
      | nil => exact absurd rfl hp
      | cons _ _ => simp
    omega
  · exact Nat.le_refl _

theorem subAll_cons_neg {e : Char → Char → Bool} {p : CL} (r : CL) {c : Char} {t : CL}
    (h : pfxBy e p (c :: t) = false) :
    subAll e p r (c :: t) = c :: subAll e p r t := by
  show subF e p r (t.length + 1) (c :: t) = _
  rw [subF, if_neg (by simp [h])]
  rfl

theorem subAll_of_occBy_false {e : Char → Char → Bool} {p r s : CL}
    (h : occBy e p s = false) : subAll e p r s = s := by
  induction s with
  | nil => rfl
  | cons c t ih =>
    rw [subAll_cons_neg r (pfxBy_false_of_occBy_false h), ih (occBy_tail_false h)]

/-! ### Facts about `splitFirst` -/

theorem splitFirst_eq {p s a b : CL} (h : splitFirst p s = some (a, b)) :
    s = a ++ p ++ b := by
  induction s generalizing a b with
  | nil =>
    rw [splitFirst] at h
    cases hpf : pfxBy chEq p []
    · rw [if_neg (by simp [hpf])] at h
      exact absurd h (by simp)
    · rw [if_pos hpf] at h
      have hp : p = [] := by
        cases p with
        | nil => rfl
        | cons _ _ => exact absurd hpf (by simp [pfxBy])
      simp only [Option.some.injEq, Prod.mk.injEq] at h
      obtain ⟨rfl, rfl⟩ := h
      simp [hp]
  | cons c t ih =>
    rw [splitFirst] at h
    cases hpf : pfxBy chEq p (c :: t)
    · rw [if_neg (by simp [hpf])] at h
      cases hsp : splitFirst p t with
      | none => rw [hsp] at h; exact absurd h (by simp)
      | some pr =>
        obtain ⟨a', b'⟩ := pr
        rw [hsp] at h
        simp only [Option.some.injEq, Prod.mk.injEq] at h
        obtain ⟨rfl, rfl⟩ := h
        have := ih hsp
        simp only [List.cons_append]
        rw [← this]
    · rw [if_pos hpf] at h
      simp only [Option.some.injEq, Prod.mk.injEq] at h
      obtain ⟨rfl, rfl⟩ := h
      simpa using eq_append_of_pfxBy hpf

theorem occBy_false_of_splitFirst_none {p s : CL} (h : splitFirst p s = none) :
    occBy chEq p s = false := by
  induction s with
  | nil =>
    rw [splitFirst] at h
    cases hpf : pfxBy chEq p []
    · exact hpf
    · rw [if_pos hpf] at h; exact absurd h (by simp)
  | cons c t ih =>
    rw [splitFirst] at h
    cases hpf : pfxBy chEq p (c :: t)
    · rw [if_neg (by simp [hpf])] at h
      rw [occBy_cons, hpf, Bool.false_or]
      cases hsp : splitFirst p t with
      | none => exact ih hsp
      | some pr => rw [hsp] at h; exact absurd h (by simp)
    · rw [if_pos hpf] at h; exact absurd h (by simp)

theorem splitFirst_none_of_occBy_false {p s : CL} (h : occBy chEq p s = false) :
    splitFirst p s = none := by
  induction s with
  | nil =>
    rw [occBy_nil] at h
    rw [splitFirst, if_neg (by simp [h])]
  | cons c t ih =>
    rw [occBy_cons, Bool.or_eq_false_iff] at h
    rw [splitFirst, if_neg (by simp [h.1]), ih h.2]

theorem occBy_false_of_splitFirst_fst {p s a b : CL} (hp : p ≠ [])
    (h : splitFirst p s = some (a, b)) : occBy chEq p a = false := by
  induction s generalizing a b with
  | nil =>
    rw [splitFirst] at h
    cases hpf : pfxBy chEq p []
    · rw [if_neg (by simp [hpf])] at h; exact absurd h (by simp)
    · exact absurd hpf (by cases p with
        | nil => exact absurd rfl hp
        | cons _ _ => simp [pfxBy])
  | cons c t ih =>
    rw [splitFirst] at h
    cases hpf : pfxBy chEq p (c :: t)
    · rw [if_neg (by simp [hpf])] at h
      cases hsp : splitFirst p t with
      | none => rw [hsp] at h; exact absurd h (by simp)
      | some pr =>
        obtain ⟨a', b'⟩ := pr
        rw [hsp] at h
        simp only [Option.some.injEq, Prod.mk.injEq] at h
        obtain ⟨rfl, rfl⟩ := h
        rw [occBy_cons, Bool.or_eq_false_iff]
        refine ⟨?_, ih hsp⟩
        cases hpf2 : pfxBy chEq p (c :: a')
        · rfl
        · exfalso
          have hlen : p.length ≤ (c :: a').length := pfxBy_length_le hpf2
          have ht : t = a' ++ p ++ b' := splitFirst_eq hsp
          have : pfxBy chEq p ((c :: a') ++ (p ++ b')) = true := by
            rw [pfxBy_append_left _ hlen]
            exact hpf2
          rw [show (c :: a') ++ (p ++ b') = c :: t by simp [ht]] at this
          rw [this] at hpf
          exact absurd hpf (by simp)
    · rw [if_pos hpf] at h
      simp only [Option.some.injEq, Prod.mk.injEq] at h
      obtain ⟨rfl, rfl⟩ := h
      cases p with
      | nil => exact absurd rfl hp
      | cons _ _ => rfl

theorem pfxBy_tail_irrel {e : Char → Char → Bool} {p : CL} (x : CL) {y z : CL}
    (h : p.length ≤ x.length) : pfxBy e p (x ++ y) = pfxBy e p (x ++ z) := by
  rw [pfxBy_append_left y h, pfxBy_append_left z h]

theorem splitFirst_stable {p a b : CL} (bp : CL)
    (h : splitFirst p (a ++ p ++ b) = some (a, b)) :
    splitFirst p (a ++ p ++ bp) = some (a, bp) := by
  induction a with
  | nil =>
    simp only [List.nil_append] at h ⊢
    cases p with
    | nil =>
      cases bp with
      | nil => rfl
      | cons c t => rfl
    | cons hc hp' =>
      rw [List.cons_append, splitFirst, if_pos (by
        rw [← List.cons_append]
        exact pfxBy_append_self _ _)]
      rw [← List.cons_append, List.drop_left]
  | cons c a' ih =>
    simp only [List.cons_append] at h ⊢
    rw [splitFirst] at h
    cases hpf : pfxBy chEq p (c :: (a' ++ p ++ b))
    · rw [if_neg (by simp only [List.append_assoc] at hpf; simp [hpf])] at h
      cases hsp : splitFirst p (a' ++ p ++ b) with
      | none => rw [hsp] at h; exact absurd h (by simp)
      | some pr =>
        obtain ⟨a2, b2⟩ := pr
        rw [hsp] at h
        simp only [Option.some.injEq, Prod.mk.injEq, List.cons.injEq] at h
        obtain ⟨⟨-, ha⟩, hb⟩ := h
        rw [ha, hb] at hsp
        have hsp2 := ih hsp
        have hx : p.length ≤ (c :: (a' ++ p)).length := by
          rw [List.length_cons, List.length_append]
          omega
        have e1 : c :: (a' ++ p ++ b) = (c :: (a' ++ p)) ++ b := by simp
        have e2 : c :: (a' ++ p ++ bp) = (c :: (a' ++ p)) ++ bp := by simp
        have hpf' : pfxBy chEq p (c :: (a' ++ p ++ bp)) = false := by
          rw [e2, pfxBy_append_left _ hx]
          rw [e1, pfxBy_append_left _ hx] at hpf
          exact hpf
        rw [splitFirst, if_neg (by simp only [List.append_assoc] at hpf'; simp [hpf']), hsp2]
    · rw [if_pos hpf] at h
      simp at h

/-! ### Border-free patterns -/

theorem borderFreeB_spec {p : CL} (hb : borderFreeB p = true) :
    ∀ l, 0 < l → l < p.length → p.take l ≠ p.drop (p.length - l) := by
  intro l hl0 hl
  have h := List.all_eq_true.mp hb l (List.mem_range.mpr hl)
  simp only [Bool.or_eq_true, beq_iff_eq, Bool.not_eq_true'] at h
  rcases h with h | h
  · omega
  · exact ne_of_beq_false h

theorem not_pfxBy_append_self {p x : CL} (hb : borderFreeB p = true)
    (ho : occBy chEq p x = false) (hx : x ≠ []) : pfxBy chEq p (x ++ p) = false := by
  cases hpf : pfxBy chEq p (x ++ p)
  · rfl
  · exfalso
    have htake := take_of_pfxBy hpf
    rcases le_or_lt p.length x.length with hle | hlt
    · rw [List.take_append_eq_append_take, Nat.sub_eq_zero_of_le hle, List.take_zero,
        List.append_nil] at htake
      have hpx : pfxBy chEq p x = true := pfxBy_of_take htake
      rw [pfxBy_false_of_occBy_false ho] at hpx
      exact absurd hpx (by simp)
    · have hxlen : 0 < x.length := List.length_pos.mpr hx
      rw [List.take_append_eq_append_take,
        List.take_of_length_le (Nat.le_of_lt hlt)] at htake
      have hdrop : p.drop x.length = p.take (p.length - x.length) := by
        conv_lhs => rw [← htake]
        rw [List.drop_left]
      have hne := borderFreeB_spec hb (p.length - x.length) (by omega) (by omega)
      rw [Nat.sub_sub_self (Nat.le_of_lt hlt)] at hne
      exact hne hdrop.symm

theorem not_pfxBy_append_pattern {p x : CL} (b : CL) (hb : borderFreeB p = true)
    (ho : occBy chEq p x = false) (hx : x ≠ []) :
    pfxBy chEq p (x ++ p ++ b) = false := by
  have hlen : p.length ≤ (x ++ p).length := by
    rw [List.length_append]; omega
  rw [pfxBy_append_left b hlen]
  exact not_pfxBy_append_self hb ho hx

theorem splitFirst_append_pattern {p x : CL} (b : CL) (hb : borderFreeB p = true)
    (hp : p ≠ []) (ho : occBy chEq p x = false) :
    splitFirst p (x ++ p ++ b) = some (x, b) := by
  induction x with
  | nil =>
    simp only [List.nil_append]
    cases p with
    | nil => exact absurd rfl hp
    | cons hc hp2 =>
      rw [List.cons_append, splitFirst,
        if_pos (by rw [← List.cons_append]; exact pfxBy_append_self _ _)]
      rw [← List.cons_append, List.drop_left]
  | cons c x' ih =>
    have hpf : pfxBy chEq p (c :: (x' ++ p ++ b)) = false := by
      have h := not_pfxBy_append_pattern (p := p) (x := c :: x') b hb ho (by simp)
      simp only [List.cons_append] at h
      exact h
    simp only [List.cons_append]
    rw [splitFirst, if_neg (by simp only [List.append_assoc] at hpf; simp [hpf])]
    rw [ih (occBy_tail_false ho)]

/-! ### Occurrences across appends and pattern overlap -/

theorem occBy_append_of_no_inner {q u t : CL}
    (h : ∀ i, i < u.length → pfxBy chEq q (u.drop i ++ t) = false) :
    occBy chEq q (u ++ t) = occBy chEq q t := by
  induction u with
  | nil => rfl
  | cons c u' ih =>
    rw [List.cons_append, occBy_cons]
    have h0 := h 0 (by simp)
    simp only [List.drop_zero, List.cons_append] at h0
    rw [h0, Bool.false_or]
    exact ih (fun i hi => by
      have h1 := h (i + 1) (by simpa using Nat.succ_lt_succ hi)
      simpa using h1)

theorem headAgree_nil_left (e : Char → Char → Bool) (y : CL) : headAgree e [] y = true := by
  cases y <;> rfl

theorem headAgree_nil_right (e : Char → Char → Bool) (x : CL) : headAgree e x [] = true := by
  cases x <;> rfl

/-- If `p` matches `u` via `e` and the literal `q` starts right at the
beginning of `u ++ t`, then `p` and `q` agree on their common prefix. -/
theorem headAgree_of_pfx {e : Char → Char → Bool} :
    ∀ {p u q t : CL}, pfxBy e p u = true → pfxBy chEq q (u ++ t) = true →
      headAgree e p q = true := by
  intro p
  induction p with
  | nil => intro u q t _ _; exact headAgree_nil_left _ _
  | cons a p' ih =>
    intro u q t hpu hq
    cases u with
    | nil => exact absurd hpu (by simp [pfxBy])
    | cons b u' =>
      cases q with
      | nil => exact headAgree_nil_right _ _
      | cons cq q' =>
        rw [pfxBy_cons, Bool.and_eq_true] at hpu
        rw [List.cons_append, pfxBy_cons, Bool.and_eq_true] at hq
        have hcb : cq = b := beq_iff_eq.mp hq.1
        show (e a cq && headAgree e p' q') = true
        rw [Bool.and_eq_true]
        exact ⟨by rw [hcb]; exact hpu.1, ih hpu.2 hq.2⟩

theorem noTouchL_spec {e : Char → Char → Bool} {p q : CL} (h : noTouchL e p q = true) :
    ∀ i, i < p.length → headAgree e (p.drop i) q = false := by
  intro i hi
  have h2 := List.all_eq_true.mp h i (List.mem_range.mpr hi)
  simpa using h2

theorem noTouchR_spec {e : Char → Char → Bool} {p q : CL} (h : noTouchR e p q = true) :
    ∀ k, k < q.length → headAgree e p (q.drop k) = false := by
  intro k hk
  have h2 := List.all_eq_true.mp h k (List.mem_range.mpr hk)
  simpa using h2

theorem noSelfR_spec {e : Char → Char → Bool} {p : CL} (h : noSelfR e p = true) :
    ∀ k, 0 < k → k < p.length → headAgree e p (p.drop k) = false := by
  intro k hk0 hk
  have h2 := List.all_eq_true.mp h k (List.mem_range.mpr hk)
  simp only [Bool.or_eq_true, beq_iff_eq, Bool.not_eq_true'] at h2
  rcases h2 with h2 | h2
  · omega
  · exact h2

/-- If `u` is matched by `p` via `e` and no suffix of `p` can align with `q`,
then no occurrence of `q` starts inside `u`. -/
theorem no_inner_occ {e : Char → Char → Bool} {p u q : CL}
    (hL : noTouchL e p q = true) (hpu : pfxBy e p u = true)
    (hlen : u.length = p.length) :
    ∀ i, i < u.length → ∀ t, pfxBy chEq q (u.drop i ++ t) = false := by
  intro i hi t
  cases hq : pfxBy chEq q (u.drop i ++ t)
  · rfl
  · exfalso
    have hdrop : pfxBy e (p.drop i) (u.drop i) = true := pfxBy_drop i hpu
    have hag := headAgree_of_pfx hdrop hq
    rw [noTouchL_spec hL i (by omega)] at hag
    exact absurd hag (by simp)

/-! ### Replacement does not disturb independent literals -/

/-- Replacing `p` by `r` (via `e`) does not change whether the suffix
`q.drop k` of a protected literal `q` is a prefix of the text, for `k ≥ kmin`,
provided such suffixes cannot align with a `p`-match or with `r`. -/
theorem pfxBy_subF_eq {e : Char → Char → Bool} {p r q : CL} (kmin : Nat) (_hp : p ≠ [])
    (h1 : ∀ k, kmin ≤ k → k < q.length → headAgree e p (q.drop k) = false)
    (h2 : ∀ k, kmin ≤ k → k < q.length → headAgree chEq r (q.drop k) = false) :
    ∀ n s k, s.length ≤ n → kmin ≤ k →
      pfxBy chEq (q.drop k) (subF e p r n s) = pfxBy chEq (q.drop k) s := by
  intro n
  induction n with
  | zero =>
    intro s k hn _
    have hs : s = [] := List.eq_nil_of_length_eq_zero (Nat.le_zero.mp hn)
    subst hs; rfl
  | succ n ih =>
    intro s k hn hk
    cases s with
    | nil => rfl
    | cons c t =>
      rcases le_or_lt q.length k with hkq | hkq
      · rw [List.drop_eq_nil_of_le hkq, pfxBy_nil, pfxBy_nil]
      · rw [List.length_cons] at hn
        cases hm : pfxBy e p (c :: t)
        · rw [subF, if_neg (by simp [hm])]
          cases hqd : q.drop k with
          | nil =>
            exfalso
            have := List.drop_eq_nil_iff.mp hqd
            omega
          | cons b q2 =>
            rw [pfxBy_cons, pfxBy_cons]
            cases hbc : chEq b c
            · rw [Bool.false_and, Bool.false_and]
            · rw [Bool.true_and, Bool.true_and]
              have hq2 : q2 = q.drop (k + 1) := by
                have hdd : q.drop (k + 1) = (q.drop k).drop 1 := by
                  rw [List.drop_drop, Nat.add_comm]
                rw [hdd, hqd, List.drop_one, List.tail_cons]
              rw [hq2]
              exact ih t (k + 1) (by omega) (by omega)
        · rw [subF, if_pos hm]
          have hqk_ne : q.drop k ≠ [] := by
            intro hnil
            have := List.drop_eq_nil_iff.mp hnil
            omega
          have hL : pfxBy chEq (q.drop k)
              (r ++ subF e p r n ((c :: t).drop p.length)) = false := by
            cases hx : pfxBy chEq (q.drop k) (r ++ subF e p r n ((c :: t).drop p.length))
            · rfl
            · exfalso
              have hag := headAgree_of_pfx (pfxBy_refl r) hx
              rw [h2 k hk hkq] at hag
              exact absurd hag (by simp)
          have hR : pfxBy chEq (q.drop k) (c :: t) = false := by
            cases hx : pfxBy chEq (q.drop k) (c :: t)
            · rfl
            · exfalso
              have hsplit : c :: t =
                  (c :: t).take p.length ++ (c :: t).drop p.length :=
                (List.take_append_drop _ _).symm
              rw [hsplit] at hx
              have hag := headAgree_of_pfx (pfxBy_take hm) hx
              rw [h1 k hk hkq] at hag
              exact absurd hag (by simp)
          rw [hL, hR]

/-- Replacing `p` by `r` (via `e`) preserves presence and absence of an
independent literal `q`: the overlap side conditions say an occurrence of `q`
can touch neither a matched text nor an inserted `r`. -/
theorem occBy_subF_eq {e : Char → Char → Bool} {p r q : CL} (hp : p ≠ [])
    (hL1 : noTouchL e p q = true) (hR1 : noTouchR e p q = true)
    (hL2 : noTouchL chEq r q = true) (hR2 : noTouchR chEq r q = true) :
    ∀ n s, s.length ≤ n → occBy chEq q (subF e p r n s) = occBy chEq q s := by
  intro n
  induction n with
  | zero =>
    intro s hn
    have hs : s = [] := List.eq_nil_of_length_eq_zero (Nat.le_zero.mp hn)
    subst hs; rfl
  | succ n ih =>
    intro s hn
    cases s with
    | nil => rfl
    | cons c t =>
      rw [List.length_cons] at hn
      have hp1 : 1 ≤ p.length := by
        cases p with
        | nil => exact absurd rfl hp
        | cons _ _ => simp
      cases hm : pfxBy e p (c :: t)
      · have hpfx := pfxBy_subF_eq 0 hp
          (fun k _ hk => noTouchR_spec hR1 k hk)
          (fun k _ hk => noTouchR_spec hR2 k hk)
          (n + 1) (c :: t) 0 (by rw [List.length_cons]; omega) (Nat.le_refl 0)
        rw [subF, if_neg (by simp [hm])] at hpfx ⊢
        simp only [List.drop_zero] at hpfx
        rw [occBy_cons, occBy_cons, hpfx, ih t (by omega)]
      · rw [subF, if_pos hm]
        have hdlen : ((c :: t).drop p.length).length ≤ n := by
          rw [List.length_drop, List.length_cons]
          omega
        rw [occBy_append_of_no_inner
          (fun i hi => no_inner_occ hL2 (pfxBy_refl r) rfl i hi _)]
        rw [ih _ hdlen]
        have hsplit : c :: t = (c :: t).take p.length ++ (c :: t).drop p.length :=
          (List.take_append_drop _ _).symm
        conv_rhs => rw [hsplit]
        rw [occBy_append_of_no_inner
          (fun i hi => no_inner_occ hL1 (pfxBy_take hm) (length_take_of_pfxBy hm) i hi _)]

theorem pfxBy_of_compat {e : Char → Char → Bool}
    (hcompat : ∀ a b, chEq a b = true → e a b = true) :
    ∀ {x y : CL}, pfxBy chEq x y = true → pfxBy e x y = true := by
  intro x
  induction x with
  | nil => intro y _; exact pfxBy_nil _ _
  | cons a x' ih =>
    intro y h
    cases y with
    | nil => exact absurd h (by simp [pfxBy])
    | cons b y' =>
      rw [pfxBy_cons, Bool.and_eq_true] at h
      rw [pfxBy_cons, Bool.and_eq_true]
      exact ⟨hcompat _ _ h.1, ih h.2⟩

/-- The output of replacing every `p` by `r` contains no occurrence of `p`,
provided `p` cannot overlap `r` or a shifted copy of itself. -/
theorem not_occBy_self_subF {e : Char → Char → Bool} {p r : CL} (hp : p ≠ [])
    (hcompat : ∀ a b, chEq a b = true → e a b = true)
    (hL2 : noTouchL chEq r p = true) (hR2 : noTouchR chEq r p = true)
    (hself : noSelfR e p = true) :
    ∀ n s, s.length ≤ n → occBy chEq p (subF e p r n s) = false := by
  intro n
  induction n with
  | zero =>
    intro s hn
    have hs : s = [] := List.eq_nil_of_length_eq_zero (Nat.le_zero.mp hn)
    subst hs
    cases p with
    | nil => exact absurd rfl hp
    | cons _ _ => rfl
  | succ n ih =>
    intro s hn
    cases s with
    | nil =>
      cases p with
      | nil => exact absurd rfl hp
      | cons _ _ => rfl
    | cons c t =>
      rw [List.length_cons] at hn
      have hp1 : 1 ≤ p.length := by
        cases p with
        | nil => exact absurd rfl hp
        | cons _ _ => simp
      cases hm : pfxBy e p (c :: t)
      · rw [subF, if_neg (by simp [hm])]
        rw [occBy_cons, ih t (by omega), Bool.or_false]
        cases p with
        | nil => exact absurd rfl hp
        | cons a p1 =>
          rw [pfxBy_cons]
          cases hac : chEq a c
          · rw [Bool.false_and]
          · rw [Bool.true_and]
            have heac : e a c = true := hcompat _ _ hac
            have hm1 : pfxBy e p1 t = false := by
              cases hx : pfxBy e p1 t
              · rfl
              · exfalso
                have htrue : pfxBy e (a :: p1) (c :: t) = true := by
                  rw [pfxBy_cons, heac, hx]; rfl
                rw [htrue] at hm
                exact absurd hm (by simp)
            have hchEq1 : pfxBy chEq p1 t = false := by
              cases hx : pfxBy chEq p1 t
              · rfl
              · exfalso
                rw [pfxBy_of_compat hcompat hx] at hm1
                exact absurd hm1 (by simp)
            have hW := pfxBy_subF_eq (e := e) (p := a :: p1) (r := r) (q := a :: p1) 1 hp
              (fun k hk1 hk => noSelfR_spec hself k (by omega) hk)
              (fun k _ hk => noTouchR_spec hR2 k hk)
              n t 1 (by omega) (Nat.le_refl 1)
            simp only [List.drop_succ_cons, List.drop_zero] at hW
            rw [hW, hchEq1]
      · rw [subF, if_pos hm]
        have hdlen : ((c :: t).drop p.length).length ≤ n := by
          rw [List.length_drop, List.length_cons]
          omega
        rw [occBy_append_of_no_inner
          (fun i hi => no_inner_occ hL2 (pfxBy_refl r) rfl i hi _)]
        exact ih _ hdlen

/-! ### Claim C1: Mozilla Account protection in brand substitution -/

/-- C1, part 1 of the machinery: the `Mozilla Account` test of line 75 is
performed after the Firefox replacement, but that replacement cannot create or
destroy an occurrence of `Mozilla Account` (no overlap is possible between
`Mozilla Account` and either `Firefox` or `Waterfox`). -/
theorem mozillaAccount_invariant (c : CL) :
    occBy chEq mozillaAccountL (subAll chEq firefoxL waterfoxL c)
      = occBy chEq mozillaAccountL c :=
  occBy_subF_eq (by decide) (by decide) (by decide) (by decide) (by decide)
    c.length c (Nat.le_refl _)

/-- C1: a content span containing `Mozilla Account` undergoes only the
Firefox→Waterfox replacement (no occurrence of `Mozilla` is replaced by
`BrowserWorks` anywhere in the span), while a span not containing
`Mozilla Account` undergoes the Firefox→Waterfox replacement and then has
every occurrence of `Mozilla` replaced by `BrowserWorks` (the result contains
no occurrence of `Mozilla` at all). -/
theorem C1_brand_protection (c : CL) :
    replace_in_string c =
      (if occBy chEq mozillaAccountL c
       then subAll chEq firefoxL waterfoxL c
       else subAll chEq mozillaL browserWorksL (subAll chEq firefoxL waterfoxL c)) ∧
    (occBy chEq mozillaAccountL c = false →
      occBy chEq mozillaL (replace_in_string c) = false) := by
  have hinv := mozillaAccount_invariant c
  constructor
  · show (if occBy chEq mozillaAccountL (subAll chEq firefoxL waterfoxL c)
          then subAll chEq firefoxL waterfoxL c
          else subAll chEq mozillaL browserWorksL (subAll chEq firefoxL waterfoxL c)) = _
    rw [hinv]
  · intro h
    show occBy chEq mozillaL
        (if occBy chEq mozillaAccountL (subAll chEq firefoxL waterfoxL c)
         then subAll chEq firefoxL waterfoxL c
         else subAll chEq mozillaL browserWorksL (subAll chEq firefoxL waterfoxL c)) = false
    rw [hinv, h, if_neg (by simp)]
    exact not_occBy_self_subF (by decide) (fun a b hab => hab)
      (by decide) (by decide) (by decide) _ _ (Nat.le_refl _)

/-- Witness for C1 at a concrete unprotected span. -/
theorem C1_brand_protection_witness :
    occBy chEq mozillaL (replace_in_string "Firefox loves Mozilla".data) = false :=
  (C1_brand_protection _).2 (by decide)

/-! ### The span scanner as a decomposition -/

theorem spanParts_render_id : ∀ (n : Nat) (s : CL),
    renderSpans id (spanParts n s).1 (spanParts n s).2 = s := by
  intro n
  induction n with
  | zero => intro s; rfl
  | succ n ih =>
    intro s
    rw [spanParts]
    cases hsp1 : splitFirst openLit s with
    | none => rfl
    | some pr1 =>
      obtain ⟨a, b⟩ := pr1
      cases hsp2 : splitFirst gtL b with
      | none => simp only [hsp2]; rfl
      | some pr2 =>
        obtain ⟨t, u⟩ := pr2
        cases hsp3 : splitFirst closeLit u with
        | none => simp only [hsp2, hsp3]; rfl
        | some pr3 =>
          obtain ⟨c, rest⟩ := pr3
          have h1 := splitFirst_eq hsp1
          have h2 := splitFirst_eq hsp2
          have h3 := splitFirst_eq hsp3
          simp only [hsp2, hsp3]
          rw [renderSpans, ih rest, h1, h2, h3]
          simp [List.append_assoc]

theorem mapSpansF_eq_render (f : CL → CL) : ∀ (n : Nat) (s : CL),
    mapSpansF f n s = renderSpans f (spanParts n s).1 (spanParts n s).2 := by
  intro n
  induction n with
  | zero => intro s; rfl
  | succ n ih =>
    intro s
    rw [spanParts, mapSpansF]
    cases hsp1 : splitFirst openLit s with
    | none => rfl
    | some pr1 =>
      obtain ⟨a, b⟩ := pr1
      cases hsp2 : splitFirst gtL b with
      | none => simp only [hsp2]; rfl
      | some pr2 =>
        obtain ⟨t, u⟩ := pr2
        cases hsp3 : splitFirst closeLit u with
        | none => simp only [hsp2, hsp3]; rfl
        | some pr3 =>
          obtain ⟨c, rest⟩ := pr3
          simp only [hsp2, hsp3]
          rw [renderSpans, ih rest]

theorem spanParts_attrs : ∀ (n : Nat) (s : CL),
    ((spanParts n s).1.all fun item => !(occBy chEq gtL item.2.1)) = true := by
  intro n
  induction n with
  | zero => intro s; rfl
  | succ n ih =>
    intro s
    rw [spanParts]
    cases hsp1 : splitFirst openLit s with
    | none => rfl
    | some pr1 =>
      obtain ⟨a, b⟩ := pr1
      cases hsp2 : splitFirst gtL b with
      | none => simp only [hsp2]; rfl
      | some pr2 =>
        obtain ⟨t, u⟩ := pr2
        cases hsp3 : splitFirst closeLit u with
        | none => simp only [hsp2, hsp3]; rfl
        | some pr3 =>
          obtain ⟨c, rest⟩ := pr3
          simp only [hsp2, hsp3]
          rw [List.all_cons]
          rw [occBy_false_of_splitFirst_fst (by decide) hsp2]
          rw [ih rest]
          rfl

/-! ### Claim C5 (amended) and claim C10: scoping of the span scanner -/

/-- C5 counterexample: on this input the text `Firefox` between
`<string-array name="a">` and the later `</string>` is not the content of any
`<string ...>...</string>` entry (it sits inside a `<string-array>` element,
before the `<string name="b">` entry), yet the brand pass rewrites it,
because the scanner pattern `<string[^>]*>` also matches the
`<string-array ...>` tag.  So the pass does modify characters outside
`<string>...</string>` content spans. -/
theorem C5_outside_spans_counterexample :
    replace_brand_names
        "<string-array name=\"a\"><item>Firefox</item><string name=\"b\">ok</string>".data
      = "<string-array name=\"a\"><item>Waterfox</item><string name=\"b\">ok</string>".data ∧
    "<string-array name=\"a\"><item>Firefox</item><string name=\"b\">ok</string>".data
      ≠ "<string-array name=\"a\"><item>Waterfox</item><string name=\"b\">ok</string>".data := by
  decide

/-- C5 (amended): the brand pass touches exactly the content slots of the
spans matched by `(<string[^>]*>)(.*?)(</string>)` — where the opening tag is
any tag whose name begins with `string` — and leaves every character outside
those content slots (text before each opening tag, the tags and their
attribute text, the closing tags, and all trailing text) unchanged.
Formally: the input is reassembled exactly by its span decomposition, the
output is the same decomposition with only the content slots rewritten by
`replace_in_string`, and the attribute slots contain no `>`, so each
reconstructed opening tag indeed matches `<string[^>]*>`. -/
theorem C5_outside_spans_amended (s : CL) :
    renderSpans id (spanParts s.length s).1 (spanParts s.length s).2 = s ∧
    replace_brand_names s =
      renderSpans replace_in_string (spanParts s.length s).1 (spanParts s.length s).2 ∧
    ((spanParts s.length s).1.all fun item => !(occBy chEq gtL item.2.1)) = true :=
  ⟨spanParts_render_id _ _, mapSpansF_eq_render _ _ _, spanParts_attrs _ _⟩

/-- C10: the span-detection pattern accepts any tag whose name merely begins
with `string`: on this input the text between `<string-array ...>` and the
first later `</string>` (the `<item>` contents, and even the
`<string name="b">` tag itself) is treated as span content, so the item text
undergoes brand substitution and apostrophe escaping although it is not the
content of a `<string>` entry. -/
theorem C10_span_prefix_match :
    replace_brand_names
        "<string-array name=\"colors\"><item>Firefox is fast</item></string-array>\n<string name=\"b\">x</string>".data
      = "<string-array name=\"colors\"><item>Waterfox is fast</item></string-array>\n<string name=\"b\">x</string>".data ∧
    fix_apostrophes
        "<string-array name=\"colors\"><item>It isn't ok</item></string-array>\n<string name=\"b\">x</string>".data
      = "<string-array name=\"colors\"><item>It isn\\'t ok</item></string-array>\n<string name=\"b\">x</string>".data := by
  decide

/-! ### Claim C2: case is not preserved by the apostrophe pass -/

/-- C2 shows a code bug: the apostrophe pass matches `it's` in `IT'S`
case-insensitively but replaces the matched text with the fixed lower-case
template (line 159 applies `re.sub` with the literal replacement string), so
`IT'S` becomes `it\'s` — the letter casing of the match is lost, not
preserved as the spec claims. -/
theorem C2_case_not_preserved :
    fix_apostrophes_in_string "IT'S".data = "it\\'s".data ∧
    fix_apostrophes_in_string "IT'S".data ≠ "IT\\'S".data := by
  decide

/-! ### Claim C3: the four-pass pipeline is not idempotent -/

/-- C3 shows a code bug: on an input whose target entry carries a `">>`
artifact, the first run's format pass sees `>%s: %d` (no match: `%s` is not
adjacent to the tag's `>`), and only the final cleanup step removes the
stray `>`; the second run's format pass then fires on the newly exposed
`>%s: %d</string>` shape.  Running the pipeline twice therefore differs from
running it once. -/
theorem C3_pipeline_not_idempotent :
    process_content (process_content
        "<string name=\"trackers_blocked_panel_categorical_num_trackers_blocked\">>%s: %d</string>".data)
      ≠ process_content
        "<string name=\"trackers_blocked_panel_categorical_num_trackers_blocked\">>%s: %d</string>".data := by
  decide

/-! ### Claim C4: targeting of the format-specifier rewrite -/

theorem tryFmtAt_none_of_not_pfx {s : CL} (h : pfxBy chEq fmtTagLit s = false) :
    tryFmtAt s = none := by
  rw [tryFmtAt, if_neg (by simp [h])]

theorem fmtScanF_id_of_no_tag : ∀ (n : Nat) (s : CL),
    occBy chEq fmtTagLit s = false → fmtScanF n s = s := by
  intro n
  induction n with
  | zero => intro s _; rfl
  | succ n ih =>
    intro s h
    cases s with
    | nil => rfl
    | cons c t =>
      rw [fmtScanF, tryFmtAt_none_of_not_pfx (pfxBy_false_of_occBy_false h)]
      rw [ih t (occBy_tail_false h)]

/-- C4: the `%s...%d` rewrite of `fix_format_specifiers` is keyed on the exact
opening-tag literal
`<string name="trackers_blocked_panel_categorical_num_trackers_blocked"`.
Conjunct 1 is the spec's example, with the middle text `: ` preserved
verbatim.  Conjunct 2 shows entries named `other` and `another`, carrying the
identical `%s: %d` content, left untouched while the target entry between
them is rewritten.  Conjunct 3: the pass is the identity on any text in which
the target opening-tag literal does not occur at all. -/
theorem C4_format_targeting :
    fix_format_specifiers
        "<string name=\"trackers_blocked_panel_categorical_num_trackers_blocked\">%s: %d</string>".data
      = "<string name=\"trackers_blocked_panel_categorical_num_trackers_blocked\">%1$s: %2$d</string>".data ∧
    fix_format_specifiers
        "<string name=\"other\">%s: %d</string><string name=\"trackers_blocked_panel_categorical_num_trackers_blocked\">%s: %d</string><string name=\"another\">%s: %d</string>".data
      = "<string name=\"other\">%s: %d</string><string name=\"trackers_blocked_panel_categorical_num_trackers_blocked\">%1$s: %2$d</string><string name=\"another\">%s: %d</string>".data ∧
    (∀ s : CL, occBy chEq fmtTagLit s = false → fix_format_specifiers s = s) :=
  ⟨by decide, by decide, fun s h => fmtScanF_id_of_no_tag _ s h⟩

/-- Witness for C4 on an entry with a different name. -/
theorem C4_format_targeting_witness :
    fix_format_specifiers "<string name=\"other\">%s: %d</string>".data
      = "<string name=\"other\">%s: %d</string>".data :=
  C4_format_targeting.2.2 _ (by decide)

/-! ### Claim C6: the apostrophe pass escapes exactly the listed forms -/

theorem foldl_subAll_of_absent : ∀ (ps : List (CL × CL)) (c : CL),
    (ps.all fun pr => !(occBy chEqCI pr.1 c)) = true →
    ps.foldl (fun acc pr => subAll chEqCI pr.1 pr.2 acc) c = c := by
  intro ps
  induction ps with
  | nil => intro c _; rfl
  | cons pr ps ih =>
    intro c h
    rw [List.all_cons, Bool.and_eq_true] at h
    rw [List.foldl_cons]
    have h1 : occBy chEqCI pr.1 c = false := by
      have h2 := h.1
      simp only [Bool.not_eq_true'] at h2
      exact h2
    rw [subAll_of_occBy_false h1]
    exact ih c h.2

/-- Localization law for one `re.sub` step of the apostrophe pass
(lines 157-159 apply one such step per listed pattern, over the whole span):
when the leftmost match of the pattern `p` on the span `x ++ u ++ b` is the
text `u`, the text `x` before the match — any bare apostrophes in it
included — is copied to the output verbatim, only the matched `u` is
replaced by the template `r`, and scanning continues on the remainder `b`. -/
theorem subAll_match_step {e : Char → Char → Bool} {p : CL} (r : CL) :
    ∀ x u b : CL, p ≠ [] → pfxBy e p u = true → u.length = p.length →
    (∀ i, i < x.length → pfxBy e p (x.drop i ++ (u ++ b)) = false) →
    subAll e p r (x ++ (u ++ b)) = x ++ r ++ subAll e p r b := by
  intro x
  induction x with
  | nil =>
    intro u b hp hpu hlen _
    simp only [List.nil_append]
    cases hu : u with
    | nil =>
      exfalso
      rw [hu] at hlen
      cases p with
      | nil => exact hp rfl
      | cons _ _ => simp at hlen
    | cons cu u2 =>
      have hple : p.length ≤ u.length := by omega
      have hpf : pfxBy e p (u ++ b) = true := by
        rw [pfxBy_append_left b hple]
        exact hpu
      have hdrop : (u ++ b).drop p.length = b := by
        rw [← hlen, List.drop_left]
      rw [hu] at hpf hdrop
      have hpf2 : pfxBy e p (cu :: (u2 ++ b)) = true := hpf
      have hdrop2 : List.drop p.length (cu :: (u2 ++ b)) = b := hdrop
      simp only [List.cons_append]
      rw [subAll_cons_pos r hp hpf2, hdrop2]
  | cons cx x2 ih =>
    intro u b hp hpu hlen hno
    have h0 := hno 0 (by simp)
    simp only [List.drop_zero] at h0
    simp only [List.cons_append] at h0 ⊢
    rw [subAll_cons_neg r h0]
    rw [ih u b hp hpu hlen (fun i hi => by
      have hi1 := hno (i + 1) (by simp only [List.length_cons]; omega)
      simpa using hi1)]

/-- C6: the apostrophe pass escapes exactly the apostrophes of the listed
forms and leaves every other apostrophe untouched, also in spans mixing
listed forms with bare apostrophes.  Conjunct 1: the spec's example end to
end through the whole pipeline (`Firefox isn't slow` becomes
`Waterfox isn\'t slow`).  Conjunct 2: a mixed span holding listed forms
(`IT'S`, `isn't`, `don't`) next to bare apostrophes (`cats'`, `Hawai'i`):
exactly the listed-form apostrophes gain a backslash while the bare
apostrophes and all surrounding text are untouched (`IT'S` is lower-cased by
the template, the code bug recorded at C2).  Conjunct 3: the localization
law `subAll_match_step` instantiated as a statement about the pass's
building block — each single `re.sub` of lines 157-159 copies the text
before the leftmost match verbatim, bare apostrophes included, replaces only
the matched text, and continues after it.  Conjunct 4: a span with no listed
form at all is returned completely unchanged.  The case-insensitive model is
exact for ASCII text (Python `re.IGNORECASE` additionally equates a few
non-ASCII characters, e.g. the long s with s), so the universal conjuncts
carry ASCII hypotheses. -/
theorem C6_apostrophe_exactness :
    process_content "<string name=\"z\">Firefox isn't slow</string>".data
      = "<string name=\"z\">Waterfox isn\\'t slow</string>".data ∧
    fix_apostrophes_in_string "IT'S the cats' toys, isn't it? don't touch Hawai'i".data
      = "it\\'s the cats' toys, isn\\'t it? don\\'t touch Hawai'i".data ∧
    (∀ p r x u b : CL, p ≠ [] → p.all asciiCh = true →
      (x ++ (u ++ b)).all asciiCh = true →
      pfxBy chEqCI p u = true → u.length = p.length →
      (∀ i, i < x.length → pfxBy chEqCI p (x.drop i ++ (u ++ b)) = false) →
      subAll chEqCI p r (x ++ (u ++ b)) = x ++ r ++ subAll chEqCI p r b) ∧
    (∀ c : CL, c.all asciiCh = true →
      (apostrophe_patterns.all fun pr => !(occBy chEqCI pr.1 c)) = true →
      fix_apostrophes_in_string c = c) :=
  ⟨by decide, by decide,
   fun p r x u b hp _ _ hpu hlen hno => subAll_match_step r x u b hp hpu hlen hno,
   fun c _ h => foldl_subAll_of_absent _ c h⟩

/-- Witness for C6: the localization law applied to the `isn't` rule on a
span where a bare apostrophe precedes and another follows the match, and the
form-free identity on a span whose apostrophes are in no listed form. -/
theorem C6_apostrophe_exactness_witness :
    subAll chEqCI "isn't".data "isn\\'t".data
        ("cats' ".data ++ ("ISN'T".data ++ " x'y".data))
      = "cats' ".data ++ "isn\\'t".data
          ++ subAll chEqCI "isn't".data "isn\\'t".data " x'y".data ∧
    fix_apostrophes_in_string "the cats' toys and Sam's hat".data
      = "the cats' toys and Sam's hat".data :=
  ⟨C6_apostrophe_exactness.2.2.1 "isn't".data "isn\\'t".data "cats' ".data
      "ISN'T".data " x'y".data (by decide) (by decide) (by decide) (by decide)
      (by decide) (by decide),
   C6_apostrophe_exactness.2.2.2 _ (by decide) (by decide)⟩

/-! ### Claim C7: the artifact cleanup -/

/-- The artifact cleanup acts on the leftmost occurrence of `">>` wherever it
is in the file: the text before it is copied unchanged, the occurrence
becomes `">`, and the scan continues after it. -/
theorem subAll_append_pattern {p : CL} (r : CL) {x : CL} (b : CL)
    (hb : borderFreeB p = true) (hp : p ≠ []) (ho : occBy chEq p x = false) :
    subAll chEq p r (x ++ p ++ b) = x ++ r ++ subAll chEq p r b := by
  induction x with
  | nil =>
    simp only [List.nil_append]
    cases p with
    | nil => exact absurd rfl hp
    | cons hc p2 =>
      rw [List.cons_append,
        subAll_cons_pos r (by simp)
          (by rw [← List.cons_append]; exact pfxBy_append_self _ _)]
      rw [← List.cons_append, List.drop_left]
  | cons cx x2 ih =>
    have hpf : pfxBy chEq p (cx :: (x2 ++ p ++ b)) = false := by
      have h := not_pfxBy_append_pattern (x := cx :: x2) b hb ho (by simp)
      simp only [List.cons_append] at h
      exact h
    simp only [List.cons_append]
    rw [subAll_cons_neg r hpf, ih (occBy_tail_false ho)]

/-- C7: the artifact cleanup is the fourth step, applied to the whole file
content after the three other passes; it replaces every occurrence of the
literal `">>` by `">` anywhere in the text — the second conjunct is the
localization law for each leftmost occurrence (valid for arbitrary
surrounding text, in particular inside tags and outside string-entry
content), and the third conjunct shows a replacement happening inside an
opening tag's attribute text. -/
theorem C7_artifact_cleanup :
    (∀ s : CL, process_content s =
      subAll chEq artifactL artifactRepL
        (fix_apostrophes (fix_format_specifiers (replace_brand_names s)))) ∧
    (∀ a b : CL, occBy chEq artifactL a = false →
      subAll chEq artifactL artifactRepL (a ++ artifactL ++ b)
        = a ++ artifactRepL ++ subAll chEq artifactL artifactRepL b) ∧
    process_content "<string name=\"a\" x=\">>v\">ok</string>".data
      = "<string name=\"a\" x=\">v\">ok</string>".data :=
  ⟨fun _ => rfl,
   fun a b ho => subAll_append_pattern _ _ (by decide) (by decide) ho,
   by decide⟩

/-- Witness for C7's localization law at a concrete occurrence. -/
theorem C7_artifact_cleanup_witness :
    subAll chEq artifactL artifactRepL ("x=".data ++ artifactL ++ "v".data)
      = "x=".data ++ artifactRepL ++ subAll chEq artifactL artifactRepL "v".data :=
  C7_artifact_cleanup.2.1 _ _ (by decide)

/-! ### Claim C8: per-file error containment -/

theorem foldl_success_count : ∀ (files : List FileCase) (n : Nat),
    files.foldl (fun n fc => if process_one fc then n + 1 else n) n
      = n + (files.filter process_one).length := by
  intro files
  induction files with
  | nil => intro n; simp
  | cons fc files ih =>
    intro n
    rw [List.foldl_cons]
    cases hf : process_one fc
    · rw [if_neg (by simp [hf]), ih, List.filter_cons, if_neg (by simp [hf])]
    · rw [if_pos (by simp [hf]), ih, List.filter_cons, if_pos (by simp [hf])]
      rw [List.length_cons]
      omega

/-- C8: a failure (I/O or encoding, modelled by `Except`) is contained at the
single file's boundary.  The summary is `(number of successful files, total)`;
inserting a failing file anywhere leaves every other file's processing and
the success count unchanged, only incrementing the total; and a failing file
produces the `Error processing <path>: <message>` report — `process_one`
returns `false` for it rather than letting anything escape. -/
theorem C8_error_containment :
    (∀ files : List FileCase,
      process_string_files files = ((files.filter process_one).length, files.length)) ∧
    (∀ (pre post : List FileCase) (bad : FileCase), process_one bad = false →
      process_string_files (pre ++ bad :: post)
        = ((process_string_files (pre ++ post)).1,
           (process_string_files (pre ++ post)).2 + 1)) ∧
    (∀ (path e : String) (w : Option String),
      file_report path ⟨.error e, w⟩ = "Error processing " ++ path ++ ": " ++ e ∧
      process_one ⟨.error e, w⟩ = false) := by
  have hcount : ∀ files : List FileCase,
      process_string_files files = ((files.filter process_one).length, files.length) := by
    intro files
    show (files.foldl _ 0, files.length) = _
    rw [foldl_success_count files 0, Nat.zero_add]
  refine ⟨hcount, ?_, ?_⟩
  · intro pre post bad hbad
    rw [hcount, hcount]
    simp only [List.filter_append, List.filter_cons, hbad]
    simp [List.length_append]
    omega
  · intro path e w
    exact ⟨rfl, rfl⟩

/-- Witness for C8: a failing file between two successes. -/
theorem C8_error_containment_witness :
    process_string_files
        ([⟨.ok "a".data, none⟩] ++ ⟨.error "boom", none⟩ :: [⟨.ok "b".data, none⟩])
      = ((process_string_files ([⟨.ok "a".data, none⟩] ++ [⟨.ok "b".data, none⟩])).1,
         (process_string_files ([⟨.ok "a".data, none⟩] ++ [⟨.ok "b".data, none⟩])).2 + 1) :=
  C8_error_containment.2.1 _ _ _ (by decide)

/-! ### Claim C9: the format rewrite fires only on the exact content shape -/

theorem pfxBy_false_head {a : Char} {p s : CL} (h : s.head? ≠ some a) :
    pfxBy chEq (a :: p) s = false := by
  cases s with
  | nil => rfl
  | cons b t =>
    simp only [List.head?_cons, ne_eq, Option.some.injEq] at h
    rw [pfxBy_cons]
    have hab : chEq a b = false := by
      cases hx : chEq a b
      · rfl
      · exact absurd (beq_iff_eq.mp hx).symm h
    rw [hab, Bool.false_and]

/-- A suffix of `x ++ y` is either a suffix of `y` or has the form
`x' ++ y` for a non-empty suffix `x'` of `x`. -/
theorem suffix_append_cases {x : CL} : ∀ {y s' : CL}, (∃ a, x ++ y = a ++ s') →
    (∃ a, y = a ++ s') ∨ (∃ x', (∃ a, x = a ++ x') ∧ x' ≠ [] ∧ s' = x' ++ y) := by
  induction x with
  | nil => intro y s' h; left; simpa using h
  | cons c x2 ih =>
    intro y s' h
    obtain ⟨a, ha⟩ := h
    cases a with
    | nil =>
      right
      refine ⟨c :: x2, ⟨[], rfl⟩, by simp, ?_⟩
      simpa using ha.symm
    | cons ca a2 =>
      simp only [List.cons_append, List.cons.injEq] at ha
      rcases ih ⟨a2, ha.2⟩ with hl | ⟨x', ⟨a3, hx3⟩, hne, hs⟩
      · exact Or.inl hl
      · exact Or.inr ⟨x', ⟨c :: a3, by rw [hx3]; rfl⟩, hne, hs⟩

theorem fmtScanF_nil : ∀ n : Nat, fmtScanF n [] = [] := by
  intro n; cases n <;> rfl

theorem fmtScanF_id_of_all_none : ∀ (n : Nat) (s : CL),
    (∀ s', (∃ a, s = a ++ s') → tryFmtAt s' = none) → fmtScanF n s = s := by
  intro n
  induction n with
  | zero => intro s _; rfl
  | succ n ih =>
    intro s h
    cases s with
    | nil => rfl
    | cons c t =>
      rw [fmtScanF, h (c :: t) ⟨[], rfl⟩]
      rw [ih t (fun s' hex => by
        obtain ⟨a, ha⟩ := hex
        exact h s' ⟨c :: a, by rw [ha]; rfl⟩)]

theorem tryFmtAt_none_of_head {s' : CL} (h : s'.head? ≠ some '<') :
    tryFmtAt s' = none := by
  apply tryFmtAt_none_of_not_pfx
  rw [show fmtTagLit = '<' :: fmtTagLit.tail from by decide]
  exact pfxBy_false_head h

/-- Any proper suffix of `fmtTagLit ++ (body ++ closeLit)` fails to match the
format pattern, provided `<` does not occur in `body`: such a suffix either
starts with a non-`<` character or is a (too short) suffix of `closeLit`. -/
theorem tryFmtAt_suffix_none {w s' : CL} (hb : occBy chEq ltL w = false)
    (hs : ∃ a, a ≠ [] ∧ fmtTagLit ++ (w ++ closeLit) = a ++ s') :
    tryFmtAt s' = none := by
  obtain ⟨a, hane, heq⟩ := hs
  have hbmem : '<' ∉ w := not_mem_of_occBy_single_false hb
  rcases suffix_append_cases ⟨a, heq⟩ with h1 | ⟨x', ⟨a0, hx0⟩, hne, hsx⟩
  · rcases suffix_append_cases h1 with h2 | ⟨y', ⟨a1, hy1⟩, hne2, hsy⟩
    · obtain ⟨a2, ha2⟩ := h2
      cases hsp : s' with
      | nil => rfl
      | cons c s2 =>
        apply tryFmtAt_none_of_not_pfx
        apply pfxBy_false_of_lt
        have hlen : closeLit.length = a2.length + s'.length := by
          rw [ha2, List.length_append]
        rw [hsp] at hlen
        have h9 : closeLit.length = 9 := by decide
        have h70 : fmtTagLit.length = 70 := by decide
        omega
    · cases hy' : y' with
      | nil => exact absurd hy' hne2
      | cons cy y2 =>
        apply tryFmtAt_none_of_head
        rw [hsy, hy']
        simp only [List.cons_append, List.head?_cons, ne_eq, Option.some.injEq]
        intro hcy
        apply hbmem
        rw [hy1, hy', ← hcy]
        exact List.mem_append_right a1 (List.mem_cons_self _ _)
  · cases ha0 : a0 with
    | nil =>
      exfalso
      rw [ha0] at hx0
      simp only [List.nil_append] at hx0
      rw [← hx0] at hsx
      rw [hsx] at heq
      have hlen := congrArg List.length heq
      simp only [List.length_append] at hlen
      have ha0len : a.length = 0 := by omega
      exact hane (List.eq_nil_of_length_eq_zero ha0len)
    | cons c0 a1 =>
      cases hx' : x' with
      | nil => exact absurd hx' hne
      | cons cx x2 =>
        apply tryFmtAt_none_of_head
        rw [hsx, hx']
        simp only [List.cons_append, List.head?_cons, ne_eq, Option.some.injEq]
        intro hcx
        have htail : '<' ∉ fmtTagLit.tail := by decide
        apply htail
        have hx0t : fmtTagLit.tail = a1 ++ x' := by
          rw [hx0, ha0]
          rfl
        rw [hx0t, hx', ← hcx]
        exact List.mem_append_right a1 (List.mem_cons_self _ _)

theorem occBy_single_append {ch : Char} {x y : CL} (hx : occBy chEq [ch] x = false)
    (hy : occBy chEq [ch] y = false) : occBy chEq [ch] (x ++ y) = false := by
  cases hocc : occBy chEq [ch] (x ++ y)
  · rfl
  · exfalso
    rcases List.mem_append.mp (head_mem_of_occBy hocc) with h | h
    · exact not_mem_of_occBy_single_false hx h
    · exact not_mem_of_occBy_single_false hy h

/-- With leading text before `%s` in the content, the pattern does not match
at the opening tag: `%s` must directly follow the tag's `>`. -/
theorem tryFmtAt_none_leading {attrs content : CL}
    (ha : occBy chEq gtL attrs = false)
    (hc1 : content ≠ []) (hc2 : content.head? ≠ some '%') :
    tryFmtAt (fmtTagLit ++ (attrs ++ (gtL ++ (content ++ closeLit)))) = none := by
  rw [tryFmtAt, if_pos (pfxBy_append_self _ _), List.drop_left,
    show attrs ++ (gtL ++ (content ++ closeLit))
        = attrs ++ gtL ++ (content ++ closeLit) from by rw [List.append_assoc]]
  simp only [splitFirst_append_pattern (content ++ closeLit) (by decide) (by decide) ha]
  have hps : pfxBy chEq psL (content ++ closeLit) = false := by
    have hh : (content ++ closeLit).head? = content.head? := by
      cases content with
      | nil => exact absurd rfl hc1
      | cons _ _ => rfl
    rw [show psL = '%' :: ['s'] from by decide]
    apply pfxBy_false_head
    rw [hh]
    exact hc2
  simp [hps]

/-- With trailing text between `%d` and `</string>`, the pattern does not
match at the opening tag: `%d` must directly precede `</string>`. -/
theorem tryFmtAt_none_trailing {attrs mid trail : CL}
    (ha : occBy chEq gtL attrs = false) (hm : occBy chEq pctL mid = false)
    (ht1 : trail ≠ []) (ht2 : occBy chEq closeLit trail = false) :
    tryFmtAt (fmtTagLit ++ (attrs ++ (gtL ++ (psL ++
        (mid ++ (pctL ++ ('d' :: (trail ++ closeLit)))))))) = none := by
  rw [tryFmtAt, if_pos (pfxBy_append_self _ _), List.drop_left,
    show attrs ++ (gtL ++ (psL ++ (mid ++ (pctL ++ ('d' :: (trail ++ closeLit))))))
        = attrs ++ gtL ++ (psL ++ (mid ++ (pctL ++ ('d' :: (trail ++ closeLit)))))
      from by rw [List.append_assoc]]
  simp only [splitFirst_append_pattern _ (by decide) (by decide) ha]
  rw [if_pos (pfxBy_append_self _ _),
    show (psL ++ (mid ++ (pctL ++ ('d' :: (trail ++ closeLit))))).drop 2
        = mid ++ (pctL ++ ('d' :: (trail ++ closeLit))) from by
      rw [show (2 : Nat) = psL.length from by decide, List.drop_left],
    show mid ++ (pctL ++ ('d' :: (trail ++ closeLit)))
        = mid ++ pctL ++ ('d' :: (trail ++ closeLit)) from by rw [List.append_assoc]]
  simp only [splitFirst_append_pattern _ (by decide) (by decide) hm]
  simp [not_pfxBy_append_self (by decide) ht2 ht1]

/-- On exactly the shape `%s`, `%`-free middle, `%d</string>`, the pattern
matches at the opening tag and the match runs to the end of the entry. -/
theorem tryFmtAt_some_exact {attrs mid : CL}
    (ha : occBy chEq gtL attrs = false) (hm : occBy chEq pctL mid = false) :
    tryFmtAt (fmtTagLit ++ (attrs ++ (gtL ++ (psL ++ (mid ++ (pctL ++ ('d' :: closeLit)))))))
      = some (fmtTagLit ++ attrs ++ gtL ++ ps1L ++ mid ++ pd2L ++ closeLit, []) := by
  rw [tryFmtAt, if_pos (pfxBy_append_self _ _), List.drop_left,
    show attrs ++ (gtL ++ (psL ++ (mid ++ (pctL ++ ('d' :: closeLit)))))
        = attrs ++ gtL ++ (psL ++ (mid ++ (pctL ++ ('d' :: closeLit))))
      from by rw [List.append_assoc]]
  simp only [splitFirst_append_pattern _ (by decide) (by decide) ha]
  rw [if_pos (pfxBy_append_self _ _),
    show (psL ++ (mid ++ (pctL ++ ('d' :: closeLit)))).drop 2
        = mid ++ (pctL ++ ('d' :: closeLit)) from by
      rw [show (2 : Nat) = psL.length from by decide, List.drop_left],
    show mid ++ (pctL ++ ('d' :: closeLit)) = mid ++ pctL ++ ('d' :: closeLit)
      from by rw [List.append_assoc]]
  simp only [splitFirst_append_pattern _ (by decide) (by decide) hm]
  rw [if_pos (pfxBy_refl _), List.drop_length]

theorem fmt_fires_exact {attrs mid : CL}
    (ha : occBy chEq gtL attrs = false) (hm : occBy chEq pctL mid = false) :
    fix_format_specifiers
        (fmtTagLit ++ (attrs ++ (gtL ++ (psL ++ (mid ++ (pctL ++ ('d' :: closeLit)))))))
      = fmtTagLit ++ attrs ++ gtL ++ ps1L ++ mid ++ pd2L ++ closeLit := by
  have hcons : ∀ X : CL, fmtTagLit ++ X = '<' :: (fmtTagLit.tail ++ X) := by
    intro X
    rw [show fmtTagLit = '<' :: fmtTagLit.tail from by decide]
    rfl
  rw [fix_format_specifiers, hcons, List.length_cons, fmtScanF, ← hcons]
  simp only [tryFmtAt_some_exact ha hm]
  rw [fmtScanF_nil, List.append_nil]

/-- C9: the `%s...%d` rewrite fires only when the target entry's whole content
span is exactly `%s`, then `%`-free text, then `%d`, with `%s` immediately
after the opening tag's `>` and `%d` immediately before `</string>`.
Conjunct 1: any non-empty leading text (first character not `%`) blocks the
rewrite — the entry, with `<`-free attributes and content so that no second
tag occurs in it, is left unchanged.  Conjunct 2: any non-empty `<`-free
trailing text between `%d` and `</string>` — such as a unit word — blocks
the rewrite.  Conjunct 3: on exactly the shape, the rewrite fires, producing
`%1$s`, the same middle text, `%2$d`.  Conjunct 4: the concrete
trailing-unit example `%s: %d개` is left unchanged (despite the code comment
at lines 103-106 claiming such text is handled). -/
theorem C9_format_shape :
    (∀ attrs content : CL,
      occBy chEq gtL attrs = false → occBy chEq ltL attrs = false →
      occBy chEq ltL content = false → content ≠ [] → content.head? ≠ some '%' →
      fix_format_specifiers (fmtTagLit ++ (attrs ++ (gtL ++ (content ++ closeLit))))
        = fmtTagLit ++ (attrs ++ (gtL ++ (content ++ closeLit)))) ∧
    (∀ attrs mid trail : CL,
      occBy chEq gtL attrs = false → occBy chEq ltL attrs = false →
      occBy chEq pctL mid = false → occBy chEq ltL mid = false →
      occBy chEq ltL trail = false → trail ≠ [] →
      fix_format_specifiers (fmtTagLit ++ (attrs ++ (gtL ++ (psL ++
          (mid ++ (pctL ++ ('d' :: (trail ++ closeLit))))))))
        = fmtTagLit ++ (attrs ++ (gtL ++ (psL ++
          (mid ++ (pctL ++ ('d' :: (trail ++ closeLit)))))))) ∧
    (∀ attrs mid : CL,
      occBy chEq gtL attrs = false → occBy chEq pctL mid = false →
      fix_format_specifiers
          (fmtTagLit ++ (attrs ++ (gtL ++ (psL ++ (mid ++ (pctL ++ ('d' :: closeLit)))))))
        = fmtTagLit ++ attrs ++ gtL ++ ps1L ++ mid ++ pd2L ++ closeLit) ∧
    fix_format_specifiers
        "<string name=\"trackers_blocked_panel_categorical_num_trackers_blocked\">%s: %d개</string>".data
      = "<string name=\"trackers_blocked_panel_categorical_num_trackers_blocked\">%s: %d개</string>".data := by
  refine ⟨?_, ?_, fun attrs mid ha hm => fmt_fires_exact ha hm, by decide⟩
  · intro attrs content ha ha2 hc0 hc1 hc2
    apply fmtScanF_id_of_all_none
    intro s' hex
    obtain ⟨a, ha'⟩ := hex
    cases haa : a with
    | nil =>
      rw [haa] at ha'
      simp only [List.nil_append] at ha'
      rw [← ha']
      exact tryFmtAt_none_leading ha hc1 hc2
    | cons c0 a1 =>
      apply tryFmtAt_suffix_none (w := attrs ++ (gtL ++ content))
      · exact occBy_single_append ha2 (occBy_single_append (by decide) hc0)
      · refine ⟨a, by rw [haa]; simp, ?_⟩
        rw [show fmtTagLit ++ (attrs ++ (gtL ++ content) ++ closeLit)
              = fmtTagLit ++ (attrs ++ (gtL ++ (content ++ closeLit)))
            from by simp [List.append_assoc]]
        exact ha'
  · intro attrs mid trail ha ha2 hm hm2 htr ht1
    have ht2 : occBy chEq closeLit trail = false := by
      cases hocc : occBy chEq closeLit trail
      · rfl
      · exfalso
        rw [show closeLit = '<' :: closeLit.tail from by decide] at hocc
        exact not_mem_of_occBy_single_false
          (show occBy chEq ['<'] trail = false from htr) (head_mem_of_occBy hocc)
    apply fmtScanF_id_of_all_none
    intro s' hex
    obtain ⟨a, ha'⟩ := hex
    cases haa : a with
    | nil =>
      rw [haa] at ha'
      simp only [List.nil_append] at ha'
      rw [← ha']
      exact tryFmtAt_none_trailing ha hm ht1 ht2
    | cons c0 a1 =>
      apply tryFmtAt_suffix_none
        (w := attrs ++ (gtL ++ (psL ++ (mid ++ (pctL ++ ('d' :: trail))))))
      · refine occBy_single_append ha2 (occBy_single_append (by decide)
          (occBy_single_append (by decide) (occBy_single_append hm2
            (occBy_single_append (by decide) ?_))))
        show occBy chEq ['<'] ('d' :: trail) = false
        rw [occBy_cons]
        rw [show pfxBy chEq (['<'] : CL) ('d' :: trail) = false from by
          rw [pfxBy_cons, show chEq '<' 'd' = false from by decide, Bool.false_and]]
        rw [Bool.false_or]
        exact htr
      · refine ⟨a, by rw [haa]; simp, ?_⟩
        rw [show fmtTagLit ++ (attrs ++ (gtL ++ (psL ++ (mid ++ (pctL ++ ('d' :: trail)))))
                ++ closeLit)
              = fmtTagLit ++ (attrs ++ (gtL ++ (psL ++
                  (mid ++ (pctL ++ ('d' :: (trail ++ closeLit)))))))
            from by simp [List.append_assoc]]
        exact ha'

/-- Witness for C9, applying all three universal conjuncts at concrete
inputs: leading text `x`, trailing text ` trackers`, and the exact shape. -/
theorem C9_format_shape_witness :
    fix_format_specifiers (fmtTagLit ++ ([] ++ (gtL ++ ("x%s: %d".data ++ closeLit))))
      = fmtTagLit ++ ([] ++ (gtL ++ ("x%s: %d".data ++ closeLit))) ∧
    fix_format_specifiers (fmtTagLit ++ ([] ++ (gtL ++ (psL ++
        (": ".data ++ (pctL ++ ('d' :: (" trackers".data ++ closeLit))))))))
      = fmtTagLit ++ ([] ++ (gtL ++ (psL ++
        (": ".data ++ (pctL ++ ('d' :: (" trackers".data ++ closeLit))))))) ∧
    fix_format_specifiers
        (fmtTagLit ++ ([] ++ (gtL ++ (psL ++ (": ".data ++ (pctL ++ ('d' :: closeLit)))))))
      = fmtTagLit ++ [] ++ gtL ++ ps1L ++ ": ".data ++ pd2L ++ closeLit :=
  ⟨C9_format_shape.1 [] "x%s: %d".data (by decide) (by decide) (by decide)
      (by decide) (by decide),
   C9_format_shape.2.1 [] ": ".data " trackers".data (by decide) (by decide)
      (by decide) (by decide) (by decide) (by decide),
   C9_format_shape.2.2.1 [] ": ".data (by decide) (by decide)⟩

end StringReplace
